import Mathlib

/-!
Verification of the netshunt reconciliation core against its specification.

Go strings are modelled as `List Char`; Go maps that the code mutates are
modelled as association lists (so that "entry present with empty list" and
"entry absent" stay distinguishable, as they are for Go maps); external
driver invocations (ipset add/del/flush, iptables setup/teardown) are
modelled as explicit effect traces.  Every definition is translated from
the repository source, file and function named in its doc comment.
-/

namespace Netshunt

/-- Go string, modelled as a list of characters. -/
abbrev GoStr := List Char

/-- Convenience: view a Lean string literal as a `GoStr`. -/
def str (s : String) : GoStr := s.toList

/-! ## Go standard-library string primitives (package `strings`) -/

/-- ASCII lowercasing of one character, as `strings.ToLower` acts on the
ASCII range (all inputs in this development are ASCII). -/
def goCharLower (c : Char) : Char :=
  if 'A' ≤ c ∧ c ≤ 'Z' then Char.ofNat (c.toNat + 32) else c

/-- `strings.ToLower` (ASCII range). -/
def goLower (s : GoStr) : GoStr := s.map goCharLower

/-- Whitespace predicate of `unicode.IsSpace` restricted to ASCII,
as used by `strings.TrimSpace`. -/
def goIsSpace (c : Char) : Bool :=
  c == ' ' || c == '\t' || c == '\n' || c == Char.ofNat 11 ||
  c == Char.ofNat 12 || c == '\r'

/-- `strings.TrimSpace`. -/
def trimSpace (s : GoStr) : GoStr :=
  ((s.dropWhile goIsSpace).reverse.dropWhile goIsSpace).reverse

/-- `strings.HasPrefix(s, pre)`. -/
def goHasPre (pre s : GoStr) : Bool := pre.isPrefixOf s

/-- `strings.TrimSuffix(s, suf)`. -/
def goTrimSuf (s suf : GoStr) : GoStr :=
  if suf.isSuffixOf s then s.take (s.length - suf.length) else s

/-- `strings.IndexByte(s, c)`: index of the first occurrence, `none` for -1. -/
def indexByteG (s : GoStr) (c : Char) : Option Nat :=
  s.findIdx? (· == c)

/-- `bytealg.LastIndexByteString(s, c)` (used by `net.SplitHostPort`). -/
def lastIndexByteG (s : GoStr) (c : Char) : Option Nat :=
  match indexByteG s.reverse c with
  | none => none
  | some i => some (s.length - 1 - i)

/-- Helper for `strings.Index`: position of the first occurrence of `sub`. -/
def indexOfSubAux (sub : GoStr) : GoStr → Option Nat
  | [] => if sub.isPrefixOf ([] : GoStr) then some 0 else none
  | c :: rest =>
    if sub.isPrefixOf (c :: rest) then some 0
    else (indexOfSubAux sub rest).map (· + 1)

/-- `strings.Index(s, sub)`, `none` for -1. -/
def indexOfSub (s sub : GoStr) : Option Nat := indexOfSubAux sub s

/-- `strings.Contains(s, sub)`. -/
def containsSub (s sub : GoStr) : Bool := (indexOfSub s sub).isSome

/-- `strings.Contains` agrees with the mathematical substring relation. -/
theorem containsSub_iff_isInfix (s sub : GoStr) :
    containsSub s sub = true ↔ sub <:+: s := by
  unfold containsSub indexOfSub
  induction s with
  | nil =>
    simp only [indexOfSubAux]
    by_cases hp : sub.isPrefixOf ([] : GoStr)
    · have hnil : sub = [] := by
        simpa using List.isPrefixOf_iff_prefix.mp hp
      simp [hp, hnil]
    · have hninf : ¬ sub <:+: [] := by
        intro hinf
        exact hp (List.isPrefixOf_iff_prefix.mpr (by simp [List.eq_nil_of_infix_nil hinf]))
      simp [hp, hninf]
  | cons c rest ih =>
    simp only [indexOfSubAux]
    by_cases hp : sub.isPrefixOf (c :: rest)
    · simp only [hp, if_true, Option.isSome_some, true_iff]
      exact (List.isPrefixOf_iff_prefix.mp hp).isInfix
    · rw [List.infix_cons_iff]
      have hnp : ¬ sub <+: (c :: rest) := fun h => hp (List.isPrefixOf_iff_prefix.mpr h)
      simp [hp, hnp, ih]

/-! ## Matcher (src/internal/dns/matcher.go) -/

/-- `matcherRules`: immutable snapshot of domain matching rules.  Compiled
regular expressions are modelled by their matching functions. -/
structure MatcherRules where
  suffixes : List GoStr
  exactSet : List GoStr
  keywords : List GoStr
  regexps : List (GoStr → Bool)

/-- The slice `d[i+1:]` for `i = strings.IndexByte(d, '.')`, or `none` when
there is no `'.'` left: one step of the suffix walk in `Matcher.Match`. -/
def dropThroughDot : GoStr → Option GoStr
  | [] => none
  | c :: rest => if c = '.' then some rest else dropThroughDot rest

theorem dropThroughDot_length {d r : GoStr} (h : dropThroughDot d = some r) :
    r.length < d.length := by
  induction d with
  | nil => simp [dropThroughDot] at h
  | cons c rest ih =>
    simp only [dropThroughDot] at h
    split at h
    · cases h; simp
    · exact Nat.lt_trans (ih h) (by simp)

/-- The suffix-walk loop of `Matcher.Match`: test the name, then repeatedly
strip up to and including the first `'.'` and retest.  The `fuel` argument
only bounds the recursion (each step shortens the name, so any fuel above
the name's length is enough); it keeps the function structurally recursive
and hence computable by the kernel. -/
def suffixWalkF (sufs : List GoStr) : Nat → GoStr → Bool
  | 0, _ => false
  | fuel + 1, d =>
    if d ∈ sufs then true
    else
      match dropThroughDot d with
      | none => false
      | some rest => suffixWalkF sufs fuel rest

/-- The suffix-walk loop of `Matcher.Match`, with enough fuel. -/
def suffixWalk (sufs : List GoStr) (d : GoStr) : Bool :=
  suffixWalkF sufs (d.length + 1) d

/-- All names visited by the suffix walk: the name itself and every suffix
obtained by repeatedly stripping the shortest prefix up to and including
the first `'.'`. -/
def suffixIterates (d : GoStr) : List GoStr :=
  d ::
    (match h : dropThroughDot d with
    | none => []
    | some rest => suffixIterates rest)
termination_by d.length
decreasing_by exact dropThroughDot_length h

theorem suffixIterates_none {d : GoStr} (hdot : dropThroughDot d = none) :
    suffixIterates d = [d] := by
  rw [suffixIterates]
  split <;> simp_all

theorem suffixIterates_some {d rest : GoStr} (hdot : dropThroughDot d = some rest) :
    suffixIterates d = d :: suffixIterates rest := by
  rw [suffixIterates]
  split <;> simp_all

theorem suffixWalkF_iff (sufs : List GoStr) :
    ∀ fuel d, d.length < fuel →
      (suffixWalkF sufs fuel d = true ↔ ∃ s ∈ suffixIterates d, s ∈ sufs) := by
  intro fuel
  induction fuel with
  | zero => intro d h; omega
  | succ fuel ih =>
    intro d hlen
    rw [suffixWalkF]
    by_cases hd : d ∈ sufs
    · simp only [hd, if_true, true_iff]
      refine ⟨d, ?_, hd⟩
      rw [suffixIterates]
      exact List.mem_cons_self d _
    · simp only [hd, if_false]
      match hdot : dropThroughDot d with
      | none =>
        rw [suffixIterates_none hdot]
        simp [hd]
      | some rest =>
        have hrest : rest.length < fuel := by
          have := dropThroughDot_length hdot
          omega
        rw [ih rest hrest, suffixIterates_some hdot]
        constructor
        · intro ⟨s, hs, hmem⟩
          exact ⟨s, List.mem_cons_of_mem d hs, hmem⟩
        · intro ⟨s, hs, hmem⟩
          rcases List.mem_cons.mp hs with rfl | h'
          · exact absurd hmem hd
          · exact ⟨s, h', hmem⟩

theorem suffixWalk_iff (sufs : List GoStr) (d : GoStr) :
    suffixWalk sufs d = true ↔ ∃ s ∈ suffixIterates d, s ∈ sufs :=
  suffixWalkF_iff sufs (d.length + 1) d (Nat.lt_succ_self _)

/-- `Matcher.Match`: exact lookup, then suffix walk, then keyword scan,
then regexp scan. -/
def matchRules (r : MatcherRules) (domain : GoStr) : Bool :=
  if domain ∈ r.exactSet then true
  else if suffixWalk r.suffixes domain then true
  else if r.keywords.any (fun kw => containsSub domain kw) then true
  else r.regexps.any (fun re => re domain)

/-! ## Go `net` parsing primitives, as used by the repository

`net.ParseIP`, `net.ParseCIDR` and `net.SplitHostPort`, translated from the
Go standard library (`net/netip` parsing plus `net/ipsock.go`), because the
repository's address-family dispatch and entry classification call them. -/

/-- Field loop of `netip.parseIPv4Fields`: decimal octets separated by `'.'`,
no leading zeros, each at most 255, exactly four fields. -/
def parseIPv4Loop : GoStr → Nat → Nat → List Nat → Option (List Nat)
  | [], val, digLen, fields =>
    if digLen = 0 then none
    else if fields.length < 3 then none
    else some (fields ++ [val])
  | c :: rest, val, digLen, fields =>
    if '0' ≤ c ∧ c ≤ '9' then
      if digLen = 1 ∧ val = 0 then none
      else
        let val' := val * 10 + (c.toNat - '0'.toNat)
        if val' > 255 then none
        else parseIPv4Loop rest val' (digLen + 1) fields
    else if c = '.' then
      if digLen = 0 then none
      else if rest = [] then none
      else if fields.length = 3 then none
      else parseIPv4Loop rest 0 0 (fields ++ [val])
    else none

/-- `netip.parseIPv4`: the four octet values of a dotted-quad literal. -/
def parseIPv4 (s : GoStr) : Option (List Nat) := parseIPv4Loop s 0 0 []

/-- Hexadecimal digit test of the `netip.parseIPv6` group reader. -/
def isHexDigitG (c : Char) : Bool :=
  decide (('0' ≤ c ∧ c ≤ '9') ∨ ('a' ≤ c ∧ c ≤ 'f') ∨ ('A' ≤ c ∧ c ≤ 'F'))

/-- Value of a hexadecimal digit. -/
def hexValG (c : Char) : Nat :=
  if '0' ≤ c ∧ c ≤ '9' then c.toNat - '0'.toNat
  else if 'a' ≤ c ∧ c ≤ 'f' then c.toNat - 'a'.toNat + 10
  else c.toNat - 'A'.toNat + 10

/-- Group reader of `netip.parseIPv6`: one to four hex digits; a fifth digit
is an error; returns the group value and the unconsumed remainder. -/
def readHexGroup : GoStr → Nat → Nat → Option (Nat × GoStr)
  | [], acc, off => if off = 0 then none else some (acc, [])
  | c :: rest, acc, off =>
    if isHexDigitG c then
      if off > 3 then none
      else readHexGroup rest (acc * 16 + hexValG c) (off + 1)
    else if off = 0 then none
    else some (acc, c :: rest)

/-- Main loop of `netip.parseIPv6` over 16-bit groups.  `groups` holds the
groups parsed so far (Go's byte index `i` is twice its length); `ellipsis`
is the group position of a `::` when one was seen.  `gas` is the number of
groups that may still be parsed (Go's loop condition `i < 16`): callers pass
`8 - groups.length`, and every recursive call appends one group, so the
recursion is structural in `gas`. -/
def parseIPv6Loop : Nat → GoStr → List Nat → Option Nat → Option (List Nat × Option Nat)
  | 0, s, groups, ellipsis =>
    if s = [] then some (groups, ellipsis) else none
  | gas + 1, s, groups, ellipsis =>
    match readHexGroup s 0 0 with
    | none => none
    | some (acc, s') =>
      if s'.head? = some '.' then
        if ellipsis = none ∧ groups.length ≠ 6 then none
        else if groups.length + 2 > 8 then none
        else
          match parseIPv4 s with
          | some [a, b, c, d] => some (groups ++ [a * 256 + b, c * 256 + d], ellipsis)
          | _ => none
      else
        match s' with
        | [] => some (groups ++ [acc], ellipsis)
        | c1 :: s1 =>
          if c1 ≠ ':' then none
          else
            match s1 with
            | [] => none
            | c2 :: s2 =>
              if c2 = ':' then
                if ellipsis.isSome then none
                else if s2 = [] then some (groups ++ [acc], some (groups.length + 1))
                else parseIPv6Loop gas s2 (groups ++ [acc]) (some (groups.length + 1))
              else parseIPv6Loop gas s1 (groups ++ [acc]) ellipsis

/-- Ellipsis expansion at the end of `netip.parseIPv6`: a short address needs
a `::`, which stands for the missing zero groups; a full one must not have one. -/
def parseIPv6Finish : Option (List Nat × Option Nat) → Option (List Nat)
  | none => none
  | some (groups, ell) =>
    if groups.length < 8 then
      match ell with
      | none => none
      | some e => some (groups.take e ++ List.replicate (8 - groups.length) 0 ++ groups.drop e)
    else if ell.isSome then none
    else some groups

/-- `netip.parseIPv6`: the eight 16-bit groups of an IPv6 literal. -/
def parseIPv6 (s0 : GoStr) : Option (List Nat) :=
  match s0 with
  | ':' :: ':' :: rest =>
    if rest = [] then some (List.replicate 8 0)
    else parseIPv6Finish (parseIPv6Loop 8 rest [] (some 0))
  | _ => parseIPv6Finish (parseIPv6Loop 8 s0 [] none)

/-- A parsed IP as `net.ParseIP` yields it: a 4-byte form for dotted quads,
a 16-byte form (eight groups) otherwise. -/
inductive GoIP
  | v4 (fields : List Nat)
  | v6 (groups : List Nat)
deriving DecidableEq

/-- Dispatch scan of `netip.ParseAddr`: the first of `'.'`, `':'`, `'%'`
decides the address family (`'%'` marks a zone, which `net.ParseIP` rejects). -/
def ipDispatch : GoStr → Option Char
  | [] => none
  | c :: rest => if c = '.' ∨ c = ':' ∨ c = '%' then some c else ipDispatch rest

/-- `net.ParseIP`. -/
def parseIP (s : GoStr) : Option GoIP :=
  match ipDispatch s with
  | some '.' => (parseIPv4 s).map GoIP.v4
  | some ':' => (parseIPv6 s).map GoIP.v6
  | _ => none

/-- `isIPv6` (src/internal/dns/tracker.go): the string parses as an IP and
`To4()` is nil, i.e. it is neither a dotted quad nor a v4-mapped address. -/
def isIPv6 (ip : GoStr) : Bool :=
  match parseIP ip with
  | none => false
  | some (.v4 _) => false
  | some (.v6 g) => !(decide (g.take 5 = List.replicate 5 0 ∧ g.get? 5 = some 65535))

/-- `dtoi` as `net.ParseCIDR` uses it on the mask: all characters decimal
digits, at least one. -/
def parseDecimal (s : GoStr) : Option Nat :=
  if s ≠ [] ∧ s.all (fun c => decide ('0' ≤ c ∧ c ≤ '9')) then
    some (s.foldl (fun n c => n * 10 + (c.toNat - '0'.toNat)) 0)
  else none

/-- `net.ParseCIDR`: split at the first `'/'`, parse the address (v4 first,
then v6) and the decimal mask bounded by the address length. -/
def parseCIDR (s : GoStr) : Option (GoIP × Nat) :=
  match indexByteG s '/' with
  | none => none
  | some i =>
    let addr := s.take i
    let mask := s.drop (i + 1)
    match parseIPv4 addr with
    | some f =>
      match parseDecimal mask with
      | some n => if n ≤ 32 then some (.v4 f, n) else none
      | none => none
    | none =>
      match parseIPv6 addr with
      | some g =>
        match parseDecimal mask with
        | some n => if n ≤ 128 then some (.v6 g, n) else none
        | none => none
      | none => none

/-- `net.SplitHostPort`: the port starts at the last `':'`; bracketed hosts
keep their inner colons; any error is `none` and leaves callers' input alone. -/
def splitHostPort (hostPort : GoStr) : Option (GoStr × GoStr) :=
  match lastIndexByteG hostPort ':' with
  | none => none
  | some i =>
    match hostPort with
    | [] => none
    | c0 :: _ =>
      if c0 = '[' then
        match indexByteG hostPort ']' with
        | none => none
        | some e =>
          if e + 1 = hostPort.length then none
          else if e + 1 = i then
            let host := (hostPort.drop 1).take (e - 1)
            if (indexByteG (hostPort.drop 1) '[').isSome then none
            else if (indexByteG (hostPort.drop (e + 1)) ']').isSome then none
            else some (host, hostPort.drop (i + 1))
          else none
      else
        let host := hostPort.take i
        if (indexByteG host ':').isSome then none
        else if (indexByteG hostPort '[').isSome then none
        else if (indexByteG hostPort ']').isSome then none
        else some (host, hostPort.drop (i + 1))

/-! ## Shunt entries (src/internal/shunt/shunt.go) -/

/-- `Entry`: a single host entry (domain, IP, or CIDR). -/
structure Entry where
  value : GoStr
deriving DecidableEq

/-- `EntryType` of src/internal/shunt/shunt.go. -/
inductive EntryType
  | domainSuffix
  | domainFull
  | domainKeyword
  | domainRegexp
  | ipLit
  | cidr
deriving DecidableEq

/-- `Entry.Type`: prefix checks in source order, then CIDR, then IP, with
bare domains defaulting to suffix rules. -/
def entryType (e : Entry) : EntryType :=
  if goHasPre (str "full:") e.value then .domainFull
  else if goHasPre (str "domain:") e.value then .domainSuffix
  else if goHasPre (str "keyword:") e.value then .domainKeyword
  else if goHasPre (str "regexp:") e.value then .domainRegexp
  else if (parseCIDR e.value).isSome then .cidr
  else if (parseIP e.value).isSome then .ipLit
  else .domainSuffix

/-- `Entry.IsDomain`. -/
def isDomainEntry (e : Entry) : Bool :=
  entryType e = EntryType.domainSuffix ∨ entryType e = EntryType.domainFull ∨
    entryType e = EntryType.domainKeyword ∨ entryType e = EntryType.domainRegexp

/-- Loop of `Entry.DomainValue` over the four recognised type markers. -/
def domainValueLoop (v : GoStr) : List GoStr → GoStr
  | [] => v
  | pre :: rest => if goHasPre pre v then v.drop pre.length else domainValueLoop v rest

/-- The four entry-type markers in the order `Entry.DomainValue` and
`normalizeEntry` try them. -/
def typeMarkers : List GoStr :=
  [str "full:", str "domain:", str "keyword:", str "regexp:"]

/-- `Entry.DomainValue`: the raw domain/pattern string with the marker stripped. -/
def domainValue (e : Entry) : GoStr :=
  domainValueLoop e.value typeMarkers

/-- `normalizeDomain` (src/internal/shunt/shunt.go): strip a URL scheme,
strip at the first `'/'`, strip a port, trim and lowercase. -/
def normalizeDomain (s0 : GoStr) : GoStr :=
  let s1 :=
    match indexOfSub s0 (str "://") with
    | some i => s0.drop (i + 3)
    | none => s0
  let s2 :=
    match indexByteG s1 '/' with
    | some i => s1.take i
    | none => s1
  let s3 :=
    match splitHostPort s2 with
    | some hp => hp.1
    | none => s2
  goLower (trimSpace s3)

/-- Marker loop of `normalizeEntry`: keyword and regexp values are trimmed
only; other marked values get `normalizeDomain` on the value part. -/
def normalizeEntryLoop (s : GoStr) : List GoStr → GoStr
  | [] => normalizeDomain s
  | pre :: rest =>
    if goHasPre pre s then
      if pre = str "keyword:" ∨ pre = str "regexp:" then pre ++ trimSpace (s.drop pre.length)
      else pre ++ normalizeDomain (s.drop pre.length)
    else normalizeEntryLoop s rest

/-- `normalizeEntry` (src/internal/shunt/shunt.go). -/
def normalizeEntry (s0 : GoStr) : GoStr :=
  normalizeEntryLoop (trimSpace s0) typeMarkers

/-! ## Matcher rule compilation (`Matcher.Update`) -/

/-- One step of the loop in `Matcher.Update`.  `compile` stands for
`regexp.Compile`: it yields the compiled expression's matching function, or
`none` for an invalid expression, which the loop silently drops. -/
def updateStep (compile : GoStr → Option (GoStr → Bool)) (r : MatcherRules) (e : Entry) :
    MatcherRules :=
  match entryType e with
  | .domainSuffix => { r with suffixes := r.suffixes ++ [goLower (domainValue e)] }
  | .domainFull => { r with exactSet := r.exactSet ++ [goLower (domainValue e)] }
  | .domainKeyword => { r with keywords := r.keywords ++ [goLower (domainValue e)] }
  | .domainRegexp =>
    match compile (domainValue e) with
    | some re => { r with regexps := r.regexps ++ [re] }
    | none => r
  | _ => r

/-- `Matcher.Update`: build a fresh ruleset from the entries; only
domain-type entries contribute; IP/CIDR entries are ignored. -/
def updateRules (compile : GoStr → Option (GoStr → Bool)) (entries : List Entry) :
    MatcherRules :=
  entries.foldl (updateStep compile)
    { suffixes := [], exactSet := [], keywords := [], regexps := [] }

/-! ## Shunt store (src/internal/shunt/store.go) -/

/-- `Shunt`: a named, toggleable collection of host entries. -/
structure Shunt where
  name : GoStr
  enabled : Bool
  entries : List Entry
deriving DecidableEq

/-- `Shunt.HasEntry`: membership by normalised value. -/
def shuntHasEntry (s : Shunt) (value : GoStr) : Bool :=
  s.entries.any (fun e => normalizeEntry e.value = normalizeEntry value)

/-- `Shunt.AddEntry`: append the normalised value unless already present;
returns the updated shunt and whether anything was added. -/
def shuntAddEntry (s : Shunt) (value : GoStr) : Shunt × Bool :=
  let v := normalizeEntry value
  if shuntHasEntry s v then (s, false)
  else ({ s with entries := s.entries ++ [{ value := v }] }, true)

/-- Removal loop of `Shunt.RemoveEntry`. -/
def removeEntryLoop (v : GoStr) : List Entry → Option (List Entry)
  | [] => none
  | e :: rest =>
    if normalizeEntry e.value = v then some rest
    else (removeEntryLoop v rest).map (e :: ·)

/-- `Shunt.RemoveEntry`: drop the first entry with the given normalised
value; returns the updated shunt and whether anything was removed. -/
def shuntRemoveEntry (s : Shunt) (value : GoStr) : Shunt × Bool :=
  match removeEntryLoop (normalizeEntry value) s.entries with
  | some es => ({ s with entries := es }, true)
  | none => (s, false)

/-- Inner loop of `Store.EnabledEntries` over one shunt's entries. -/
def enabledEntriesInner (seen : List GoStr) (acc : List Entry) :
    List Entry → List GoStr × List Entry
  | [] => (seen, acc)
  | e :: rest =>
    let key := normalizeEntry e.value
    if key ∈ seen then enabledEntriesInner seen acc rest
    else enabledEntriesInner (seen ++ [key]) (acc ++ [e]) rest

/-- Outer loop of `Store.EnabledEntries` over the stored shunts. -/
def enabledEntriesLoop (seen : List GoStr) (acc : List Entry) :
    List Shunt → List Entry
  | [] => acc
  | sh :: rest =>
    if sh.enabled then
      let p := enabledEntriesInner seen acc sh.entries
      enabledEntriesLoop p.1 p.2 rest
    else enabledEntriesLoop seen acc rest

/-- `Store.EnabledEntries`: all entries of all enabled shunts in stored
order, deduplicated by normalised value, first occurrence kept. -/
def enabledEntries (shunts : List Shunt) : List Entry :=
  enabledEntriesLoop [] [] shunts

/-! ## Tracker (src/internal/dns/tracker.go)

The two Go maps are association lists with unique keys; reading a missing
key yields the empty list (Go's nil slice), and `delete` removes the
binding, so "bound to an empty list" and "absent" stay distinct.  Calls to
the ipset drivers are collected as an effect trace. -/

/-- Address family of an ipset driver call. -/
inductive SetFam
  | v4
  | v6
deriving DecidableEq

/-- One external ipset driver invocation issued by the tracker. -/
inductive IPSetEff
  | add (fam : SetFam) (ip : GoStr)
  | del (fam : SetFam) (ip : GoStr)
  | flushSet (fam : SetFam)
deriving DecidableEq

/-- A string-keyed Go map of string slices, as an association list. -/
abbrev StrMap := List (GoStr × List GoStr)

/-- Map read with comma-ok: `v, ok := m[k]`. -/
def lookupA : StrMap → GoStr → Option (List GoStr)
  | [], _ => none
  | (k', v) :: rest, k => if k' = k then some v else lookupA rest k

/-- Plain map read `m[k]`: a missing key reads as the nil slice. -/
def lookupD (m : StrMap) (k : GoStr) : List GoStr :=
  (lookupA m k).getD []

/-- Map write `m[k] = v`. -/
def updateA : StrMap → GoStr → List GoStr → StrMap
  | [], k, v => [(k, v)]
  | (k', v') :: rest, k, v =>
    if k' = k then (k, v) :: rest else (k', v') :: updateA rest k v

/-- Map delete `delete(m, k)`. -/
def eraseA : StrMap → GoStr → StrMap
  | [], _ => []
  | (k', v) :: rest, k => if k' = k then eraseA rest k else (k', v) :: eraseA rest k

/-- Tracker state: `forward : domain → IPs` and `reverse : IP → domains`. -/
structure TrackerState where
  forward : StrMap
  reverse : StrMap
deriving DecidableEq

/-- The state of a freshly constructed tracker (`NewTracker`). -/
def emptyTracker : TrackerState := { forward := [], reverse := [] }

/-- `Tracker.ipsetFor` together with the nil check on the v6 driver:
`hasV6` records whether a v6 ipset driver was configured. -/
def ipsetFor (hasV6 : Bool) (ip : GoStr) : SetFam :=
  if isIPv6 ip = true ∧ hasV6 = true then .v6 else .v4

/-- `Tracker.Track`: add the edge to both maps if absent, then call `Add`
on the driver chosen by `ipsetFor` (always, also for duplicates). -/
def track (hasV6 : Bool) (t : TrackerState) (domain ip : GoStr) :
    TrackerState × List IPSetEff :=
  let ips := lookupD t.forward domain
  let t' :=
    if ip ∈ ips then t
    else
      let fwd := updateA t.forward domain (ips ++ [ip])
      let refs := lookupD t.reverse ip
      if domain ∈ refs then { forward := fwd, reverse := t.reverse }
      else { forward := fwd, reverse := updateA t.reverse ip (refs ++ [domain]) }
  (t', [.add (ipsetFor hasV6 ip) ip])

/-- The per-address loop of `Tracker.RemoveDomain`: drop `domain` from each
address's reverse list, deleting entries that become empty and remembering
those addresses (`toRemove`) in iteration order. -/
def removeLoop (domain : GoStr) : List GoStr → StrMap → StrMap × List GoStr
  | [], rev => (rev, [])
  | ip :: rest, rev =>
    let refs := lookupD rev ip
    let refs' := refs.filter (fun d => d ≠ domain)
    if refs' = [] then
      let p := removeLoop domain rest (eraseA rev ip)
      (p.1, ip :: p.2)
    else removeLoop domain rest (updateA rev ip refs')

/-- `Tracker.RemoveDomain`: delete the forward entry, update the reverse
map, then call `Del` for every remembered address. -/
def removeDomain (hasV6 : Bool) (t : TrackerState) (domain : GoStr) :
    TrackerState × List IPSetEff :=
  let ips := lookupD t.forward domain
  let p := removeLoop domain ips t.reverse
  ({ forward := eraseA t.forward domain, reverse := p.1 },
    p.2.map (fun ip => .del (ipsetFor hasV6 ip) ip))

/-- `Tracker.Flush`: reset both maps, then flush each configured ipset. -/
def flushTracker (hasV6 : Bool) :
    TrackerState × List IPSetEff :=
  (emptyTracker, .flushSet .v4 :: if hasV6 then [.flushSet .v6] else [])

/-- One tracker operation, for reasoning about reachable states. -/
inductive TrackerOp
  | track (domain ip : GoStr)
  | removeDomain (domain : GoStr)
  | flush

/-- State component of one tracker operation. -/
def applyOp (hasV6 : Bool) (t : TrackerState) : TrackerOp → TrackerState
  | .track d ip => (track hasV6 t d ip).1
  | .removeDomain d => (removeDomain hasV6 t d).1
  | .flush => (flushTracker hasV6).1

/-- The tracker state after a sequence of operations on a fresh tracker. -/
def applyOps (hasV6 : Bool) (ops : List TrackerOp) : TrackerState :=
  ops.foldl (applyOp hasV6) emptyTracker

/-- The tracker state after a sequence of `Track(d, ip)` calls on a fresh
tracker (the state does not depend on the configured drivers). -/
def applyTracks (hasV6 : Bool) (evs : List (GoStr × GoStr)) : TrackerState :=
  applyOps hasV6 (evs.map (fun e => TrackerOp.track e.1 e.2))

/-! ### Association-list lemmas for the tracker maps -/

def keysOf (m : StrMap) : List GoStr := m.map (·.1)

theorem lookupA_updateA_self (m : StrMap) (k : GoStr) (v : List GoStr) :
    lookupA (updateA m k v) k = some v := by
  induction m with
  | nil => simp [updateA, lookupA]
  | cons p rest ih =>
    obtain ⟨k', v'⟩ := p
    by_cases h : k' = k <;> simp [updateA, lookupA, h, ih]

theorem lookupA_updateA_ne (m : StrMap) {k k' : GoStr} (v : List GoStr) (h : k' ≠ k) :
    lookupA (updateA m k v) k' = lookupA m k' := by
  have hkk : ¬ k = k' := fun hh => h hh.symm
  induction m with
  | nil => simp [updateA, lookupA, hkk]
  | cons p rest ih =>
    obtain ⟨k₀, v₀⟩ := p
    by_cases h0 : k₀ = k
    · subst h0
      simp [updateA, lookupA, hkk]
    · by_cases h1 : k₀ = k' <;> simp [updateA, lookupA, h0, h1, h, ih]

theorem lookupA_eraseA_self (m : StrMap) (k : GoStr) :
    lookupA (eraseA m k) k = none := by
  induction m with
  | nil => simp [eraseA, lookupA]
  | cons p rest ih =>
    obtain ⟨k₀, v₀⟩ := p
    by_cases h : k₀ = k <;> simp [eraseA, lookupA, h, ih]

theorem lookupA_eraseA_ne (m : StrMap) {k k' : GoStr} (h : k' ≠ k) :
    lookupA (eraseA m k) k' = lookupA m k' := by
  induction m with
  | nil => simp [eraseA, lookupA]
  | cons p rest ih =>
    obtain ⟨k₀, v₀⟩ := p
    by_cases h0 : k₀ = k
    · subst h0
      have hne : ¬ k₀ = k' := fun hh => h hh.symm
      simp [eraseA, lookupA, hne, ih]
    · by_cases h1 : k₀ = k' <;> simp [eraseA, lookupA, h0, h1, h, ih]

theorem lookupA_mem {m : StrMap} {k : GoStr} {v : List GoStr}
    (h : lookupA m k = some v) : (k, v) ∈ m := by
  induction m with
  | nil => simp [lookupA] at h
  | cons p rest ih =>
    obtain ⟨k₀, v₀⟩ := p
    by_cases h0 : k₀ = k
    · subst h0
      simp only [lookupA, if_true] at h
      cases h
      exact List.mem_cons_self _ _
    · simp only [lookupA, h0, if_false] at h
      exact List.mem_cons_of_mem _ (ih h)

theorem mem_updateA {m : StrMap} {k : GoStr} {v : List GoStr} {p : GoStr × List GoStr}
    (h : p ∈ updateA m k v) : p = (k, v) ∨ p ∈ m := by
  induction m with
  | nil => simpa [updateA] using h
  | cons q rest ih =>
    obtain ⟨k₀, v₀⟩ := q
    by_cases h0 : k₀ = k
    · subst h0
      simp only [updateA, if_true] at h
      rcases List.mem_cons.mp h with rfl | hm
      · exact Or.inl rfl
      · exact Or.inr (List.mem_cons_of_mem _ hm)
    · simp only [updateA, h0, if_false] at h
      rcases List.mem_cons.mp h with rfl | hm
      · exact Or.inr (List.mem_cons_self _ _)
      · rcases ih hm with h' | h'
        · exact Or.inl h'
        · exact Or.inr (List.mem_cons_of_mem _ h')

theorem eraseA_sublist (m : StrMap) (k : GoStr) : List.Sublist (eraseA m k) m := by
  induction m with
  | nil => simp [eraseA]
  | cons p rest ih =>
    obtain ⟨k₀, v₀⟩ := p
    by_cases h : k₀ = k
    · simpa [eraseA, h] using List.Sublist.cons (k₀, v₀) ih
    · simpa [eraseA, h] using List.Sublist.cons₂ (k₀, v₀) ih

theorem mem_eraseA {m : StrMap} {k : GoStr} {p : GoStr × List GoStr}
    (h : p ∈ eraseA m k) : p ∈ m :=
  (eraseA_sublist m k).subset h

theorem mem_keysOf_updateA {m : StrMap} {k a : GoStr} {v : List GoStr}
    (h : a ∈ keysOf (updateA m k v)) : a ∈ keysOf m ∨ a = k := by
  rcases List.mem_map.mp h with ⟨p, hp, rfl⟩
  rcases mem_updateA hp with rfl | hm
  · exact Or.inr rfl
  · exact Or.inl (List.mem_map.mpr ⟨p, hm, rfl⟩)

theorem keysOf_updateA_nodup {m : StrMap} {k : GoStr} {v : List GoStr}
    (h : (keysOf m).Nodup) : (keysOf (updateA m k v)).Nodup := by
  induction m with
  | nil => simp [updateA, keysOf]
  | cons p rest ih =>
    obtain ⟨k₀, v₀⟩ := p
    simp only [keysOf, List.map_cons, List.nodup_cons] at h
    by_cases h0 : k₀ = k
    · subst h0
      simpa [updateA, keysOf, List.nodup_cons] using h
    · simp only [updateA, h0, if_false, keysOf, List.map_cons, List.nodup_cons]
      refine ⟨?_, ih h.2⟩
      intro hk
      rcases mem_keysOf_updateA hk with hm | rfl
      · exact h.1 hm
      · exact h0 rfl

theorem keysOf_eraseA_nodup {m : StrMap} {k : GoStr}
    (h : (keysOf m).Nodup) : (keysOf (eraseA m k)).Nodup :=
  h.sublist ((eraseA_sublist m k).map _)

theorem lookupD_nodup {m : StrMap} (hv : ∀ p ∈ m, p.2.Nodup) (k : GoStr) :
    (lookupD m k).Nodup := by
  unfold lookupD
  match h : lookupA m k with
  | none => simp
  | some v => exact hv (k, v) (lookupA_mem h)

theorem lookupD_updateA_self (m : StrMap) (k : GoStr) (v : List GoStr) :
    lookupD (updateA m k v) k = v := by
  simp [lookupD, lookupA_updateA_self]

theorem lookupD_updateA_ne (m : StrMap) {k k' : GoStr} (v : List GoStr) (h : k' ≠ k) :
    lookupD (updateA m k v) k' = lookupD m k' := by
  simp [lookupD, lookupA_updateA_ne m v h]

theorem lookupD_eraseA_self (m : StrMap) (k : GoStr) :
    lookupD (eraseA m k) k = [] := by
  simp [lookupD, lookupA_eraseA_self]

theorem lookupD_eraseA_ne (m : StrMap) {k k' : GoStr} (h : k' ≠ k) :
    lookupD (eraseA m k) k' = lookupD m k' := by
  simp [lookupD, lookupA_eraseA_ne m h]

/-- The tracker's internal consistency: unique keys, non-empty duplicate-free
value lists, and the forward/reverse membership correspondence. -/
structure TrackerInv (t : TrackerState) : Prop where
  fkeys : (keysOf t.forward).Nodup
  rkeys : (keysOf t.reverse).Nodup
  fvals : ∀ p ∈ t.forward, p.2 ≠ [] ∧ p.2.Nodup
  rvals : ∀ p ∈ t.reverse, p.2 ≠ [] ∧ p.2.Nodup
  edge_iff : ∀ d a, a ∈ lookupD t.forward d ↔ d ∈ lookupD t.reverse a

theorem trackerInv_empty : TrackerInv emptyTracker := by
  constructor <;> simp [emptyTracker, keysOf, lookupD, lookupA]

theorem nodup_append_singleton {l : List GoStr} {a : GoStr} (h : l.Nodup) (ha : a ∉ l) :
    (l ++ [a]).Nodup := by
  rw [List.nodup_append]
  refine ⟨h, List.nodup_singleton a, ?_⟩
  intro x hx hy
  rw [List.mem_singleton] at hy
  subst hy
  exact ha hx

theorem track_fst (hasV6 : Bool) (t : TrackerState) (d ip : GoStr) :
    (track hasV6 t d ip).1 =
      if ip ∈ lookupD t.forward d then t
      else
        { forward := updateA t.forward d (lookupD t.forward d ++ [ip]),
          reverse :=
            if d ∈ lookupD t.reverse ip then t.reverse
            else updateA t.reverse ip (lookupD t.reverse ip ++ [d]) } := by
  simp only [track]
  by_cases h1 : ip ∈ lookupD t.forward d <;>
    by_cases h2 : d ∈ lookupD t.reverse ip <;> simp [h1, h2]

theorem track_snd (hasV6 : Bool) (t : TrackerState) (d ip : GoStr) :
    (track hasV6 t d ip).2 = [.add (ipsetFor hasV6 ip) ip] := rfl

theorem inv_track (hasV6 : Bool) (t : TrackerState) (d ip : GoStr) (hinv : TrackerInv t) :
    TrackerInv (track hasV6 t d ip).1 := by
  rw [track_fst]
  by_cases h1 : ip ∈ lookupD t.forward d
  · simpa [h1] using hinv
  · simp only [h1, if_false]
    have hips : (lookupD t.forward d).Nodup :=
      lookupD_nodup (fun p hp => (hinv.fvals p hp).2) d
    have hfwd_vals : ∀ p ∈ updateA t.forward d (lookupD t.forward d ++ [ip]),
        p.2 ≠ [] ∧ p.2.Nodup := by
      intro p hp
      rcases mem_updateA hp with rfl | hm
      · exact ⟨by simp, nodup_append_singleton hips h1⟩
      · exact hinv.fvals p hm
    by_cases h2 : d ∈ lookupD t.reverse ip
    · rw [if_pos h2]
      refine ⟨keysOf_updateA_nodup hinv.fkeys, hinv.rkeys, hfwd_vals, hinv.rvals, ?_⟩
      intro d' a
      by_cases hd : d' = d
      · subst hd
        rw [lookupD_updateA_self]
        by_cases ha : a = ip
        · subst ha
          simp [h2]
        · simp only [List.mem_append, List.mem_singleton, ha, or_false]
          exact hinv.edge_iff d' a
      · rw [lookupD_updateA_ne _ _ hd]
        exact hinv.edge_iff d' a
    · have hrefs : (lookupD t.reverse ip).Nodup :=
        lookupD_nodup (fun p hp => (hinv.rvals p hp).2) ip
      rw [if_neg h2]
      refine ⟨keysOf_updateA_nodup hinv.fkeys, keysOf_updateA_nodup hinv.rkeys,
        hfwd_vals, ?_, ?_⟩
      · intro p hp
        rcases mem_updateA hp with rfl | hm
        · exact ⟨by simp, nodup_append_singleton hrefs h2⟩
        · exact hinv.rvals p hm
      · intro d' a
        by_cases hd : d' = d <;> by_cases ha : a = ip
        · subst hd; subst ha
          rw [lookupD_updateA_self, lookupD_updateA_self]
          simp
        · subst hd
          rw [lookupD_updateA_self, lookupD_updateA_ne _ _ ha]
          simp only [List.mem_append, List.mem_singleton, ha, or_false]
          exact hinv.edge_iff d' a
        · subst ha
          rw [lookupD_updateA_ne _ _ hd, lookupD_updateA_self]
          simp only [List.mem_append, List.mem_singleton, hd, or_false]
          exact hinv.edge_iff d' a
        · rw [lookupD_updateA_ne _ _ hd, lookupD_updateA_ne _ _ ha]
          exact hinv.edge_iff d' a

theorem removeLoop_fst_lookupA (d : GoStr) :
    ∀ (ips : List GoStr) (rev : StrMap), ips.Nodup → ∀ a,
      lookupA (removeLoop d ips rev).1 a =
        if a ∈ ips then
          (if (lookupD rev a).filter (fun x => x ≠ d) = [] then none
           else some ((lookupD rev a).filter (fun x => x ≠ d)))
        else lookupA rev a := by
  intro ips
  induction ips with
  | nil =>
    intro rev h a
    simp [removeLoop]
  | cons ip rest ih =>
    intro rev hnd a
    have hnotin : ip ∉ rest := (List.nodup_cons.mp hnd).1
    have hrest : rest.Nodup := (List.nodup_cons.mp hnd).2
    by_cases hempty : (lookupD rev ip).filter (fun x => x ≠ d) = []
    · have hstep : (removeLoop d (ip :: rest) rev).1 =
          (removeLoop d rest (eraseA rev ip)).1 := by
        simp only [removeLoop]
        rw [if_pos hempty]
      rw [hstep, ih (eraseA rev ip) hrest a]
      by_cases ha : a = ip
      · subst ha
        rw [if_neg hnotin, lookupA_eraseA_self,
          if_pos (List.mem_cons_self a rest), if_pos hempty]
      · rw [lookupD_eraseA_ne _ ha, lookupA_eraseA_ne _ ha]
        by_cases hmem : a ∈ rest
        · rw [if_pos hmem, if_pos (List.mem_cons_of_mem ip hmem)]
        · rw [if_neg hmem, if_neg (fun hc => (List.mem_cons.mp hc).elim ha hmem)]
    · have hstep : (removeLoop d (ip :: rest) rev).1 =
          (removeLoop d rest (updateA rev ip
            ((lookupD rev ip).filter (fun x => x ≠ d)))).1 := by
        simp only [removeLoop]
        rw [if_neg hempty]
      rw [hstep, ih _ hrest a]
      by_cases ha : a = ip
      · subst ha
        rw [if_neg hnotin, lookupA_updateA_self,
          if_pos (List.mem_cons_self a rest), if_neg hempty]
      · rw [lookupD_updateA_ne _ _ ha, lookupA_updateA_ne _ _ ha]
        by_cases hmem : a ∈ rest
        · rw [if_pos hmem, if_pos (List.mem_cons_of_mem ip hmem)]
        · rw [if_neg hmem, if_neg (fun hc => (List.mem_cons.mp hc).elim ha hmem)]

theorem removeLoop_fst_lookupD (d : GoStr) (ips : List GoStr) (rev : StrMap)
    (hnd : ips.Nodup) (a : GoStr) :
    lookupD (removeLoop d ips rev).1 a =
      if a ∈ ips then (lookupD rev a).filter (fun x => x ≠ d)
      else lookupD rev a := by
  show (lookupA (removeLoop d ips rev).1 a).getD [] = _
  rw [removeLoop_fst_lookupA d ips rev hnd a]
  by_cases hmem : a ∈ ips
  · rw [if_pos hmem, if_pos hmem]
    by_cases hempty : (lookupD rev a).filter (fun x => x ≠ d) = []
    · rw [if_pos hempty, hempty]
      rfl
    · rw [if_neg hempty]
      rfl
  · rw [if_neg hmem, if_neg hmem]
    rfl

theorem removeLoop_snd (d : GoStr) :
    ∀ (ips : List GoStr) (rev : StrMap), ips.Nodup →
      (removeLoop d ips rev).2 =
        ips.filter (fun a => (lookupD rev a).filter (fun x => x ≠ d) = []) := by
  intro ips
  induction ips with
  | nil =>
    intro rev h
    simp [removeLoop]
  | cons ip rest ih =>
    intro rev hnd
    have hnotin : ip ∉ rest := (List.nodup_cons.mp hnd).1
    have hrest : rest.Nodup := (List.nodup_cons.mp hnd).2
    by_cases hempty : (lookupD rev ip).filter (fun x => x ≠ d) = []
    · have hstep : (removeLoop d (ip :: rest) rev).2 =
          ip :: (removeLoop d rest (eraseA rev ip)).2 := by
        simp only [removeLoop]
        rw [if_pos hempty]
      rw [hstep, ih (eraseA rev ip) hrest]
      have hcongr : rest.filter
            (fun a => (lookupD (eraseA rev ip) a).filter (fun x => x ≠ d) = []) =
          rest.filter (fun a => (lookupD rev a).filter (fun x => x ≠ d) = []) := by
        apply List.filter_congr
        intro a hmem
        have ha : a ≠ ip := fun hh => hnotin (hh ▸ hmem)
        rw [lookupD_eraseA_ne _ ha]
      rw [hcongr, List.filter_cons, if_pos (by simpa using hempty)]
    · have hstep : (removeLoop d (ip :: rest) rev).2 =
          (removeLoop d rest (updateA rev ip
            ((lookupD rev ip).filter (fun x => x ≠ d)))).2 := by
        simp only [removeLoop]
        rw [if_neg hempty]
      rw [hstep, ih _ hrest]
      have hcongr : rest.filter
            (fun a => (lookupD (updateA rev ip ((lookupD rev ip).filter (fun x => x ≠ d))) a).filter
              (fun x => x ≠ d) = []) =
          rest.filter (fun a => (lookupD rev a).filter (fun x => x ≠ d) = []) := by
        apply List.filter_congr
        intro a hmem
        have ha : a ≠ ip := fun hh => hnotin (hh ▸ hmem)
        rw [lookupD_updateA_ne _ _ ha]
      rw [hcongr, List.filter_cons, if_neg (by simpa using hempty)]

theorem removeLoop_keys_nodup (d : GoStr) :
    ∀ (ips : List GoStr) (rev : StrMap), (keysOf rev).Nodup →
      (keysOf (removeLoop d ips rev).1).Nodup := by
  intro ips
  induction ips with
  | nil =>
    intro rev h
    simpa [removeLoop] using h
  | cons ip rest ih =>
    intro rev h
    by_cases hempty : (lookupD rev ip).filter (fun x => x ≠ d) = []
    · have hstep : (removeLoop d (ip :: rest) rev).1 =
          (removeLoop d rest (eraseA rev ip)).1 := by
        simp only [removeLoop]
        rw [if_pos hempty]
      rw [hstep]
      exact ih _ (keysOf_eraseA_nodup h)
    · have hstep : (removeLoop d (ip :: rest) rev).1 =
          (removeLoop d rest (updateA rev ip
            ((lookupD rev ip).filter (fun x => x ≠ d)))).1 := by
        simp only [removeLoop]
        rw [if_neg hempty]
      rw [hstep]
      exact ih _ (keysOf_updateA_nodup h)

theorem removeLoop_vals (d : GoStr) :
    ∀ (ips : List GoStr) (rev : StrMap), (∀ p ∈ rev, p.2 ≠ [] ∧ p.2.Nodup) →
      ∀ p ∈ (removeLoop d ips rev).1, p.2 ≠ [] ∧ p.2.Nodup := by
  intro ips
  induction ips with
  | nil =>
    intro rev h
    simpa [removeLoop] using h
  | cons ip rest ih =>
    intro rev h
    by_cases hempty : (lookupD rev ip).filter (fun x => x ≠ d) = []
    · have hstep : (removeLoop d (ip :: rest) rev).1 =
          (removeLoop d rest (eraseA rev ip)).1 := by
        simp only [removeLoop]
        rw [if_pos hempty]
      rw [hstep]
      exact ih _ (fun p hp => h p (mem_eraseA hp))
    · have hstep : (removeLoop d (ip :: rest) rev).1 =
          (removeLoop d rest (updateA rev ip
            ((lookupD rev ip).filter (fun x => x ≠ d)))).1 := by
        simp only [removeLoop]
        rw [if_neg hempty]
      rw [hstep]
      apply ih
      intro p hp
      rcases mem_updateA hp with rfl | hm
      · refine ⟨hempty, ?_⟩
        exact (lookupD_nodup (fun q hq => (h q hq).2) ip).filter _
      · exact h p hm

theorem inv_removeDomain (hasV6 : Bool) (t : TrackerState) (d : GoStr)
    (hinv : TrackerInv t) : TrackerInv (removeDomain hasV6 t d).1 := by
  have hips : (lookupD t.forward d).Nodup :=
    lookupD_nodup (fun p hp => (hinv.fvals p hp).2) d
  refine ⟨?_, ?_, ?_, ?_, ?_⟩
  · exact keysOf_eraseA_nodup hinv.fkeys
  · exact removeLoop_keys_nodup d _ _ hinv.rkeys
  · intro p hp
    exact hinv.fvals p (mem_eraseA hp)
  · exact removeLoop_vals d _ _ hinv.rvals
  · intro d' a
    show a ∈ lookupD (eraseA t.forward d) d' ↔
      d' ∈ lookupD (removeLoop d (lookupD t.forward d) t.reverse).1 a
    rw [removeLoop_fst_lookupD d _ _ hips a]
    by_cases hd : d' = d
    · subst hd
      rw [lookupD_eraseA_self]
      by_cases hmem : a ∈ lookupD t.forward d'
      · simp [hmem, List.mem_filter]
      · simp only [hmem, if_false, List.not_mem_nil, false_iff]
        intro hcon
        exact hmem ((hinv.edge_iff d' a).mpr hcon)
    · rw [lookupD_eraseA_ne _ hd]
      by_cases hmem : a ∈ lookupD t.forward d
      · simp only [hmem, if_true, List.mem_filter]
        constructor
        · intro h
          exact ⟨(hinv.edge_iff d' a).mp h, by simpa using hd⟩
        · intro h
          exact (hinv.edge_iff d' a).mpr h.1
      · simp only [hmem, if_false]
        exact hinv.edge_iff d' a

theorem inv_applyOp (hasV6 : Bool) (t : TrackerState) (op : TrackerOp)
    (hinv : TrackerInv t) : TrackerInv (applyOp hasV6 t op) := by
  cases op with
  | track d ip => exact inv_track hasV6 t d ip hinv
  | removeDomain d => exact inv_removeDomain hasV6 t d hinv
  | flush => exact trackerInv_empty

theorem inv_applyOps (hasV6 : Bool) (ops : List TrackerOp) :
    TrackerInv (applyOps hasV6 ops) := by
  suffices h : ∀ t, TrackerInv t → TrackerInv (ops.foldl (applyOp hasV6) t) by
    exact h emptyTracker trackerInv_empty
  induction ops with
  | nil => intro t h; simpa using h
  | cons op rest ih =>
    intro t h
    exact ih _ (inv_applyOp hasV6 t op h)

/-! ## DNS forwarder (src/unnamed/part_028, type `Forwarder`) -/

/-- One resource record of a DNS Answer section, by the cases the
forwarder's type switch distinguishes. -/
inductive RR
  | a (addr : GoStr)
  | aaaa (addr : GoStr)
  | other (payload : Nat)
deriving DecidableEq

/-- Whether a record is an AAAA record. -/
def isAAAA : RR → Bool
  | .aaaa _ => true
  | _ => false

/-- A DNS message, restricted to the fields `handleQuery` and
`sendServFail` read or write. -/
structure Msg where
  msgId : Nat
  response : Bool
  rcode : Nat
  truncated : Bool
  rd : Bool
  ra : Bool
  question : List GoStr
  answer : List RR
deriving DecidableEq

/-- The v6-enabled loop of `Forwarder.processMatchedResponse`: every A and
AAAA answer is tracked; the answers themselves are left alone. -/
def trackAll (domain : GoStr) : List RR → List (GoStr × GoStr)
  | [] => []
  | .a addr :: rest => (domain, addr) :: trackAll domain rest
  | .aaaa addr :: rest => (domain, addr) :: trackAll domain rest
  | .other _ :: rest => trackAll domain rest

/-- The v6-disabled loop of `Forwarder.processMatchedResponse`: A answers
are tracked and kept, AAAA answers are stripped and not tracked, any other
answer is kept. -/
def filterStrip (domain : GoStr) : List RR → List RR × List (GoStr × GoStr)
  | [] => ([], [])
  | .a addr :: rest =>
    let p := filterStrip domain rest
    (.a addr :: p.1, (domain, addr) :: p.2)
  | .aaaa _ :: rest => filterStrip domain rest
  | .other n :: rest =>
    let p := filterStrip domain rest
    (.other n :: p.1, p.2)

/-- `Forwarder.processMatchedResponse`: the forwarded Answer section and
the `Track(domain, ip)` calls issued, by the v6 flag. -/
def processMatchedResponse (ipv6 : Bool) (domain : GoStr) (ans : List RR) :
    List RR × List (GoStr × GoStr) :=
  if ipv6 then (ans, trackAll domain ans)
  else filterStrip domain ans

/-- `Forwarder.sendServFail`: a synthesised SERVFAIL (`Rcode = 2`)
preserving the request id, question and RD flag, with RA set. -/
def sendServFail (r : Msg) : Msg :=
  { msgId := r.msgId, response := true, rcode := 2, truncated := false,
    rd := r.rd, ra := true, question := r.question, answer := [] }

/-- `Forwarder.handleQuery`.  The upstream exchanges are modelled by their
outcomes: `udp` is the result of the UDP exchange and `tcp` of the TCP
retry after truncation (`none` = exchange error).  Returns the response
written to the client, if any, and the `Track` calls issued. -/
def handleQuery (rules : MatcherRules) (ipv6 : Bool) (udp tcp : Option Msg)
    (r : Msg) : Option Msg × List (GoStr × GoStr) :=
  match r.question with
  | [] => (none, [])
  | q :: _ =>
    match udp with
    | none => (some (sendServFail r), [])
    | some resp0 =>
      match (if resp0.truncated then tcp else some resp0) with
      | none => (some (sendServFail r), [])
      | some resp =>
        let qname := goLower (goTrimSuf q (str "."))
        if matchRules rules qname then
          let p := processMatchedResponse ipv6 qname resp.answer
          (some { resp with answer := p.1 }, p.2)
        else (some resp, [])

/-! ## Reconciler (src/unnamed/part_004, `Reconciler.ApplyMutation`) -/

/-- One component call made by a reconcile pass, recorded as an effect. -/
inductive RecEff
  | removeDomainCall (d : GoStr)
  | updateMatcherCall
  | ensureTableCall
  | addDirectCall (v : GoStr)
  | flushTrackerCall
  | teardownRulesCall
  | setupRulesCall
deriving DecidableEq

/-- `domainSet`: the domain values of the domain-type entries.  The Go
`map[string]struct` is modelled by this list; only membership is consulted. -/
def domainSetL (entries : List Entry) : List GoStr :=
  (entries.filter (fun e => isDomainEntry e)).map domainValue

/-- `Reconciler.populateIPSet`: an ipset `Add` for each direct IP/CIDR
entry; domain entries are left to the DNS forwarder. -/
def populateIPSet : List Entry → List RecEff
  | [] => []
  | e :: rest =>
    match entryType e with
    | .ipLit => .addDirectCall e.value :: populateIPSet rest
    | .cidr => .addDirectCall e.value :: populateIPSet rest
    | _ => populateIPSet rest

/-- `Reconciler.ApplyMutation` on a successfully loaded snapshot `entries`:
the new last-applied domain set and the trace of component calls.
`ensureOk` is whether `EnsureTable` succeeded; on failure the method
returns the error before `populateIPSet`.  Go iterates `lastDomains` in
unspecified map order; the model fixes one order, and the claims about it
are stated on membership only. -/
def applyMutation (lastDomains : List GoStr) (entries : List Entry)
    (ensureOk : Bool) : List GoStr × List RecEff :=
  let newDomains := domainSetL entries
  let removals :=
    (lastDomains.filter (fun dom => dom ∉ newDomains)).map RecEff.removeDomainCall
  if ensureOk then
    (newDomains,
      removals ++ [.updateMatcherCall, .ensureTableCall] ++ populateIPSet entries)
  else (newDomains, removals ++ [.updateMatcherCall, .ensureTableCall])

/-! ## Store mutations (src/internal/shunt/store.go)

Each mutation loads the file, modifies the list, and saves.  A mutation's
outcome is the list of file states written by `save` plus the error, if
any; `loaded = none` models a failing load (unreadable or unparseable
file). -/

/-- Outcome of a store mutation. -/
structure MutResult where
  saves : List (List Shunt)
  err : Option GoStr
deriving DecidableEq

/-- `Store.Create`: error when the name already exists. -/
def storeCreate (loaded : Option (List Shunt)) (sh : Shunt) : MutResult :=
  match loaded with
  | none => { saves := [], err := some (str "load") }
  | some shunts =>
    if shunts.any (fun x => x.name = sh.name) then
      { saves := [], err := some (str "already exists") }
    else { saves := [shunts ++ [sh]], err := none }

/-- Replacement loop of `Store.Update`. -/
def updateShuntLoop (sh : Shunt) : List Shunt → Option (List Shunt)
  | [] => none
  | x :: rest =>
    if x.name = sh.name then some (sh :: rest)
    else (updateShuntLoop sh rest).map (x :: ·)

/-- `Store.Update`: replace the named shunt entirely. -/
def storeUpdate (loaded : Option (List Shunt)) (sh : Shunt) : MutResult :=
  match loaded with
  | none => { saves := [], err := some (str "load") }
  | some shunts =>
    match updateShuntLoop sh shunts with
    | some l => { saves := [l], err := none }
    | none => { saves := [], err := some (str "not found") }

/-- Removal loop of `Store.Delete`. -/
def deleteShuntLoop (name : GoStr) : List Shunt → Option (List Shunt)
  | [] => none
  | x :: rest =>
    if x.name = name then some rest
    else (deleteShuntLoop name rest).map (x :: ·)

/-- `Store.Delete`: remove the named shunt. -/
def storeDelete (loaded : Option (List Shunt)) (name : GoStr) : MutResult :=
  match loaded with
  | none => { saves := [], err := some (str "load") }
  | some shunts =>
    match deleteShuntLoop name shunts with
    | some l => { saves := [l], err := none }
    | none => { saves := [], err := some (str "not found") }

/-- Per-shunt loop of `Store.AddEntry`. -/
def addEntryLoop (name value : GoStr) : List Shunt → MutResult
  | [] => { saves := [], err := some (str "shunt not found") }
  | x :: rest =>
    if x.name = name then
      let p := shuntAddEntry x value
      if p.2 then { saves := [p.1 :: rest], err := none }
      else { saves := [], err := some (str "entry already exists") }
    else
      let r := addEntryLoop name value rest
      { saves := r.saves.map (fun l => x :: l), err := r.err }

/-- `Store.AddEntry`: error on unknown shunt or duplicate entry. -/
def storeAddEntry (loaded : Option (List Shunt)) (name value : GoStr) : MutResult :=
  match loaded with
  | none => { saves := [], err := some (str "load") }
  | some shunts => addEntryLoop name value shunts

/-- Per-shunt loop of `Store.RemoveEntry`. -/
def removeEntryStoreLoop (name value : GoStr) : List Shunt → MutResult
  | [] => { saves := [], err := some (str "shunt not found") }
  | x :: rest =>
    if x.name = name then
      let p := shuntRemoveEntry x value
      if p.2 then { saves := [p.1 :: rest], err := none }
      else { saves := [], err := some (str "entry not found") }
    else
      let r := removeEntryStoreLoop name value rest
      { saves := r.saves.map (fun l => x :: l), err := r.err }

/-- `Store.RemoveEntry`: error on unknown shunt or missing entry. -/
def storeRemoveEntry (loaded : Option (List Shunt)) (name value : GoStr) : MutResult :=
  match loaded with
  | none => { saves := [], err := some (str "load") }
  | some shunts => removeEntryStoreLoop name value shunts

/-- Per-shunt loop of `Store.SetEnabled`. -/
def setEnabledLoop (name : GoStr) (en : Bool) : List Shunt → MutResult
  | [] => { saves := [], err := some (str "not found") }
  | x :: rest =>
    if x.name = name then { saves := [{ x with enabled := en } :: rest], err := none }
    else
      let r := setEnabledLoop name en rest
      { saves := r.saves.map (fun l => x :: l), err := r.err }

/-- `Store.SetEnabled`: error on unknown shunt. -/
def storeSetEnabled (loaded : Option (List Shunt)) (name : GoStr) (en : Bool) : MutResult :=
  match loaded with
  | none => { saves := [], err := some (str "load") }
  | some shunts => setEnabledLoop name en shunts

/-! ## The spec's description of snapshot deduplication -/

/-- Stated from the spec: walk the concatenated selectors of the enabled
bundles and keep each normalised value's first occurrence. -/
def dedupFirstWins (seen : List GoStr) : List Entry → List Entry
  | [] => []
  | e :: rest =>
    if normalizeEntry e.value ∈ seen then dedupFirstWins seen rest
    else e :: dedupFirstWins (seen ++ [normalizeEntry e.value]) rest

/-- Stated from the spec: the selectors of all enabled bundles concatenated
in bundle order. -/
def enabledConcat : List Shunt → List Entry
  | [] => []
  | sh :: rest =>
    if sh.enabled then sh.entries ++ enabledConcat rest else enabledConcat rest

/-! ## Supporting lemmas for the claims -/

theorem filterStrip_fst (domain : GoStr) (ans : List RR) :
    (filterStrip domain ans).1 = ans.filter (fun rr => !isAAAA rr) := by
  induction ans with
  | nil => simp [filterStrip]
  | cons rr rest ih => cases rr <;> simp [filterStrip, isAAAA, ih]

theorem filterStrip_snd (domain : GoStr) (ans : List RR) :
    (filterStrip domain ans).2 =
      ans.filterMap (fun rr =>
        match rr with
        | .a ip => some (domain, ip)
        | _ => none) := by
  induction ans with
  | nil => simp [filterStrip]
  | cons rr rest ih => cases rr <;> simp [filterStrip, List.filterMap_cons, ih]

theorem trackAll_eq (domain : GoStr) (ans : List RR) :
    trackAll domain ans =
      ans.filterMap (fun rr =>
        match rr with
        | .a ip => some (domain, ip)
        | .aaaa ip => some (domain, ip)
        | .other _ => none) := by
  induction ans with
  | nil => simp [trackAll]
  | cons rr rest ih => cases rr <;> simp [trackAll, List.filterMap_cons, ih]

theorem populateIPSet_mem {entries : List Entry} {x : RecEff}
    (h : x ∈ populateIPSet entries) : ∃ v, x = .addDirectCall v := by
  induction entries with
  | nil => simp [populateIPSet] at h
  | cons e rest ih =>
    unfold populateIPSet at h
    split at h
    · rcases List.mem_cons.mp h with rfl | hm
      · exact ⟨e.value, rfl⟩
      · exact ih hm
    · rcases List.mem_cons.mp h with rfl | hm
      · exact ⟨e.value, rfl⟩
      · exact ih hm
    · exact ih h

theorem addEntryLoop_err (name value : GoStr) :
    ∀ shunts : List Shunt, (addEntryLoop name value shunts).err ≠ none →
      (addEntryLoop name value shunts).saves = [] := by
  intro shunts
  induction shunts with
  | nil => intro _; rfl
  | cons x rest ih =>
    intro herr
    by_cases hn : x.name = name
    · by_cases hadd : (shuntAddEntry x value).2
      · exact absurd (by simp [addEntryLoop, hn, hadd]) herr
      · simp [addEntryLoop, hn, hadd]
    · have hs : (addEntryLoop name value (x :: rest)).saves =
          List.map (fun l => x :: l) (addEntryLoop name value rest).saves := by
        simp [addEntryLoop, hn]
      have he : (addEntryLoop name value (x :: rest)).err =
          (addEntryLoop name value rest).err := by
        simp [addEntryLoop, hn]
      rw [hs, ih (he ▸ herr)]
      rfl

theorem removeEntryStoreLoop_err (name value : GoStr) :
    ∀ shunts : List Shunt, (removeEntryStoreLoop name value shunts).err ≠ none →
      (removeEntryStoreLoop name value shunts).saves = [] := by
  intro shunts
  induction shunts with
  | nil => intro _; rfl
  | cons x rest ih =>
    intro herr
    by_cases hn : x.name = name
    · by_cases hrem : (shuntRemoveEntry x value).2
      · exact absurd (by simp [removeEntryStoreLoop, hn, hrem]) herr
      · simp [removeEntryStoreLoop, hn, hrem]
    · have hs : (removeEntryStoreLoop name value (x :: rest)).saves =
          List.map (fun l => x :: l) (removeEntryStoreLoop name value rest).saves := by
        simp [removeEntryStoreLoop, hn]
      have he : (removeEntryStoreLoop name value (x :: rest)).err =
          (removeEntryStoreLoop name value rest).err := by
        simp [removeEntryStoreLoop, hn]
      rw [hs, ih (he ▸ herr)]
      rfl

theorem setEnabledLoop_err (name : GoStr) (en : Bool) :
    ∀ shunts : List Shunt, (setEnabledLoop name en shunts).err ≠ none →
      (setEnabledLoop name en shunts).saves = [] := by
  intro shunts
  induction shunts with
  | nil => intro _; rfl
  | cons x rest ih =>
    intro herr
    by_cases hn : x.name = name
    · exact absurd (by simp [setEnabledLoop, hn]) herr
    · have hs : (setEnabledLoop name en (x :: rest)).saves =
          List.map (fun l => x :: l) (setEnabledLoop name en rest).saves := by
        simp [setEnabledLoop, hn]
      have he : (setEnabledLoop name en (x :: rest)).err =
          (setEnabledLoop name en rest).err := by
        simp [setEnabledLoop, hn]
      rw [hs, ih (he ▸ herr)]
      rfl

/-! ## Claim theorems -/

/-- C9.  The claim says `normalizeEntry` detects CIDRs before the
path-strip step and keeps the mask.  The code has no CIDR detection: the
first `'/'` truncates the value, so `"10.0.0.0/8"` normalises to
`"10.0.0.0"` and `"2001:db8::/32"` to `"2001:db8::"`, even though entry
classification (`Entry.Type`) does recognise `"10.0.0.0/8"` as a CIDR and
the code's own comment asserts CIDRs are not affected. -/
theorem normalizeEntry_truncates_cidr :
    normalizeEntry (str "10.0.0.0/8") = str "10.0.0.0" ∧
    normalizeEntry (str "2001:db8::/32") = str "2001:db8::" ∧
    entryType { value := str "10.0.0.0/8" } = EntryType.cidr ∧
    entryType { value := str "10.0.0.0" } = EntryType.ipLit ∧
    normalizeEntry (str "10.0.0.0/8") ≠ str "10.0.0.0/8" := by
  refine ⟨?_, ?_, ?_, ?_, ?_⟩ <;> decide

/-- C10.  Every store mutation that fails (load failure, unknown or
duplicate shunt name, duplicate or missing entry) returns its error before
any save: the trace of file writes is empty, so the persisted shunts file
is unchanged. -/
theorem store_mutations_atomic_on_error :
    (∀ (loaded : Option (List Shunt)) (sh : Shunt),
      (storeCreate loaded sh).err ≠ none → (storeCreate loaded sh).saves = []) ∧
    (∀ (loaded : Option (List Shunt)) (sh : Shunt),
      (storeUpdate loaded sh).err ≠ none → (storeUpdate loaded sh).saves = []) ∧
    (∀ (loaded : Option (List Shunt)) (name : GoStr),
      (storeDelete loaded name).err ≠ none → (storeDelete loaded name).saves = []) ∧
    (∀ (loaded : Option (List Shunt)) (name value : GoStr),
      (storeAddEntry loaded name value).err ≠ none →
        (storeAddEntry loaded name value).saves = []) ∧
    (∀ (loaded : Option (List Shunt)) (name value : GoStr),
      (storeRemoveEntry loaded name value).err ≠ none →
        (storeRemoveEntry loaded name value).saves = []) ∧
    (∀ (loaded : Option (List Shunt)) (name : GoStr) (en : Bool),
      (storeSetEnabled loaded name en).err ≠ none →
        (storeSetEnabled loaded name en).saves = []) := by
  refine ⟨?_, ?_, ?_, ?_, ?_, ?_⟩
  · intro loaded sh herr
    match loaded with
    | none => rfl
    | some shunts =>
      unfold storeCreate at *
      by_cases hdup : shunts.any (fun x => x.name = sh.name)
      · simp [hdup]
      · simp [hdup] at herr
  · intro loaded sh herr
    match loaded with
    | none => rfl
    | some shunts =>
      unfold storeUpdate at *
      match h : updateShuntLoop sh shunts with
      | some l => simp [h] at herr
      | none => simp [h]
  · intro loaded name herr
    match loaded with
    | none => rfl
    | some shunts =>
      unfold storeDelete at *
      match h : deleteShuntLoop name shunts with
      | some l => simp [h] at herr
      | none => simp [h]
  · intro loaded name value herr
    match loaded with
    | none => rfl
    | some shunts => exact addEntryLoop_err name value shunts herr
  · intro loaded name value herr
    match loaded with
    | none => rfl
    | some shunts => exact removeEntryStoreLoop_err name value shunts herr
  · intro loaded name en herr
    match loaded with
    | none => rfl
    | some shunts => exact setEnabledLoop_err name en shunts herr

/-- C10 witness: a failing `AddEntry` (duplicate entry) leaves the file
untouched; the instance is evaluated concretely. -/
theorem store_mutations_atomic_on_error_witness :
    (storeAddEntry (some [⟨str "A", true, [⟨str "a.com"⟩]⟩]) (str "A") (str "a.com")).err
        ≠ none ∧
    (storeAddEntry (some [⟨str "A", true, [⟨str "a.com"⟩]⟩]) (str "A") (str "a.com")).saves
        = [] :=
  ⟨by decide, store_mutations_atomic_on_error.2.2.2.1
    (some [⟨str "A", true, [⟨str "a.com"⟩]⟩]) (str "A") (str "a.com") (by decide)⟩

/-- C5.  A mutation reconcile with a successfully loaded snapshot calls
`Tracker.RemoveDomain` exactly for the domains in the previous last-applied
set that are missing from the new domain set, and its call trace contains
no tracker flush and no rule teardown or setup, whether or not
`EnsureTable` succeeds. -/
theorem applyMutation_effects (lastDomains : List GoStr) (entries : List Entry)
    (ensureOk : Bool) (dom : GoStr) :
    (RecEff.removeDomainCall dom ∈ (applyMutation lastDomains entries ensureOk).2 ↔
      dom ∈ lastDomains ∧ dom ∉ domainSetL entries) ∧
    RecEff.flushTrackerCall ∉ (applyMutation lastDomains entries ensureOk).2 ∧
    RecEff.teardownRulesCall ∉ (applyMutation lastDomains entries ensureOk).2 ∧
    RecEff.setupRulesCall ∉ (applyMutation lastDomains entries ensureOk).2 := by
  have hpop : ∀ x ∈ populateIPSet entries, ∃ v, x = RecEff.addDirectCall v :=
    fun x hx => populateIPSet_mem hx
  have hif : ∀ x ∈ (if ensureOk = true then populateIPSet entries else []),
      ∃ v, x = RecEff.addDirectCall v := by
    cases ensureOk
    · simp
    · simpa using hpop
  have heffs : (applyMutation lastDomains entries ensureOk).2 =
      (lastDomains.filter (fun d0 => d0 ∉ domainSetL entries)).map RecEff.removeDomainCall ++
        ([RecEff.updateMatcherCall, RecEff.ensureTableCall] ++
          (if ensureOk = true then populateIPSet entries else [])) := by
    unfold applyMutation
    cases ensureOk <;> simp
  rw [heffs]
  refine ⟨⟨?_, ?_⟩, ?_, ?_, ?_⟩
  · intro hmem
    rcases List.mem_append.mp hmem with hmem | hmem
    · rcases List.mem_map.mp hmem with ⟨d0, hd0, heq⟩
      simp only [RecEff.removeDomainCall.injEq] at heq
      subst heq
      have hf := List.mem_filter.mp hd0
      exact ⟨hf.1, by simpa using hf.2⟩
    · rcases List.mem_append.mp hmem with hmem | hmem
      · simp at hmem
      · rcases hif _ hmem with ⟨v, hv⟩
        simp at hv
  · intro h
    apply List.mem_append.mpr
    exact Or.inl (List.mem_map.mpr
      ⟨dom, List.mem_filter.mpr ⟨h.1, by simpa using h.2⟩, rfl⟩)
  · intro hmem
    rcases List.mem_append.mp hmem with hmem | hmem
    · rcases List.mem_map.mp hmem with ⟨d0, _, heq⟩
      simp at heq
    · rcases List.mem_append.mp hmem with hmem | hmem
      · simp at hmem
      · rcases hif _ hmem with ⟨v, hv⟩
        simp at hv
  · intro hmem
    rcases List.mem_append.mp hmem with hmem | hmem
    · rcases List.mem_map.mp hmem with ⟨d0, _, heq⟩
      simp at heq
    · rcases List.mem_append.mp hmem with hmem | hmem
      · simp at hmem
      · rcases hif _ hmem with ⟨v, hv⟩
        simp at hv
  · intro hmem
    rcases List.mem_append.mp hmem with hmem | hmem
    · rcases List.mem_map.mp hmem with ⟨d0, _, heq⟩
      simp at heq
    · rcases List.mem_append.mp hmem with hmem | hmem
      · simp at hmem
      · rcases hif _ hmem with ⟨v, hv⟩
        simp at hv

/-- C5 witness: removing bundle domain `b.com` while keeping `a.com`
issues exactly the `RemoveDomain("b.com")` call. -/
theorem applyMutation_effects_witness :
    (RecEff.removeDomainCall (str "b.com") ∈
        (applyMutation [str "a.com", str "b.com"] [⟨str "a.com"⟩] true).2 ↔
      str "b.com" ∈ [str "a.com", str "b.com"] ∧
        str "b.com" ∉ domainSetL [⟨str "a.com"⟩]) ∧
    RecEff.flushTrackerCall ∉ (applyMutation [str "a.com", str "b.com"] [⟨str "a.com"⟩] true).2 ∧
    RecEff.teardownRulesCall ∉ (applyMutation [str "a.com", str "b.com"] [⟨str "a.com"⟩] true).2 ∧
    RecEff.setupRulesCall ∉ (applyMutation [str "a.com", str "b.com"] [⟨str "a.com"⟩] true).2 :=
  applyMutation_effects [str "a.com", str "b.com"] [⟨str "a.com"⟩] true (str "b.com")

/-- C6.  `processMatchedResponse` with v6 disabled forwards every A record
(each tracked) and every non-A, non-AAAA record unchanged and in order,
forwards no AAAA record, and tracks no AAAA address; with v6 enabled it
forwards all answers unchanged and tracks both A and AAAA addresses. -/
theorem processMatchedResponse_spec (domain : GoStr) (ans : List RR) :
    (processMatchedResponse false domain ans).1 = ans.filter (fun rr => !isAAAA rr) ∧
    (∀ rr ∈ (processMatchedResponse false domain ans).1, isAAAA rr = false) ∧
    (processMatchedResponse false domain ans).2 =
      ans.filterMap (fun rr =>
        match rr with
        | .a ip => some (domain, ip)
        | _ => none) ∧
    (processMatchedResponse true domain ans).1 = ans ∧
    (processMatchedResponse true domain ans).2 =
      ans.filterMap (fun rr =>
        match rr with
        | .a ip => some (domain, ip)
        | .aaaa ip => some (domain, ip)
        | .other _ => none) := by
  refine ⟨?_, ?_, ?_, ?_, ?_⟩
  · simpa [processMatchedResponse] using filterStrip_fst domain ans
  · intro rr hrr
    simp only [processMatchedResponse, if_false, Bool.false_eq_true] at hrr
    rw [filterStrip_fst domain ans] at hrr
    simpa using (List.mem_filter.mp hrr).2
  · simpa [processMatchedResponse] using filterStrip_snd domain ans
  · simp [processMatchedResponse]
  · simpa [processMatchedResponse] using trackAll_eq domain ans

/-- C6 witness: a mixed A/AAAA/other answer with v6 disabled keeps the A
and other records, drops the AAAA record, and tracks only the A address. -/
theorem processMatchedResponse_spec_witness :
    (processMatchedResponse false (str "matched.example")
        [.a (str "203.0.113.7"), .aaaa (str "2001:db8::7"), .other 5]).1 =
      [.a (str "203.0.113.7"), .other 5] ∧
    (processMatchedResponse false (str "matched.example")
        [.a (str "203.0.113.7"), .aaaa (str "2001:db8::7"), .other 5]).2 =
      [(str "matched.example", str "203.0.113.7")] := by
  have h := processMatchedResponse_spec (str "matched.example")
    [.a (str "203.0.113.7"), .aaaa (str "2001:db8::7"), .other 5]
  exact ⟨h.1.trans (by decide), h.2.2.1.trans (by decide)⟩

/-- C7.  For an inbound query with at least one question, a failed
upstream exchange (UDP failure, or TCP retry failure after truncation)
makes the forwarder answer a synthesised SERVFAIL preserving the request's
id, question and RD flag, with RA set, and no `Track` call is made. -/
theorem handleQuery_servfail (rules : MatcherRules) (ipv6 : Bool)
    (udp tcp : Option Msg) (r : Msg) (q : GoStr) (qs : List GoStr)
    (hq : r.question = q :: qs)
    (hfail : udp = none ∨ ∃ m, udp = some m ∧ m.truncated = true ∧ tcp = none) :
    handleQuery rules ipv6 udp tcp r = (some (sendServFail r), []) ∧
    (sendServFail r).rcode = 2 ∧
    (sendServFail r).msgId = r.msgId ∧
    (sendServFail r).question = r.question ∧
    (sendServFail r).rd = r.rd ∧
    (sendServFail r).ra = true := by
  refine ⟨?_, rfl, rfl, rfl, rfl, rfl⟩
  rcases hfail with rfl | ⟨m, rfl, htrunc, rfl⟩
  · simp [handleQuery, hq]
  · simp [handleQuery, hq, htrunc]

/-- C7 witness: a concrete failing exchange for a one-question query. -/
theorem handleQuery_servfail_witness :
    handleQuery { suffixes := [], exactSet := [], keywords := [], regexps := [] }
        false none none
        { msgId := 7, response := false, rcode := 0, truncated := false,
          rd := true, ra := false, question := [str "example.com."], answer := [] } =
      (some (sendServFail
        { msgId := 7, response := false, rcode := 0, truncated := false,
          rd := true, ra := false, question := [str "example.com."], answer := [] }), []) :=
  (handleQuery_servfail _ false none none _ (str "example.com.") [] rfl (Or.inl rfl)).1

theorem dedupFirstWins_append (l₁ : List Entry) :
    ∀ (seen : List GoStr) (l₂ : List Entry),
      dedupFirstWins seen (l₁ ++ l₂) =
        dedupFirstWins seen l₁ ++
          dedupFirstWins
            (seen ++ (dedupFirstWins seen l₁).map (fun e => normalizeEntry e.value)) l₂ := by
  induction l₁ with
  | nil =>
    intro seen l₂
    simp [dedupFirstWins]
  | cons e rest ih =>
    intro seen l₂
    by_cases hk : normalizeEntry e.value ∈ seen
    · simp only [List.cons_append, dedupFirstWins, hk, if_true]
      exact ih seen l₂
    · simp only [List.cons_append, dedupFirstWins, hk, if_false, List.map_cons]
      simp [ih, List.append_assoc]

theorem enabledEntriesInner_eq :
    ∀ (es : List Entry) (seen : List GoStr) (acc : List Entry),
      enabledEntriesInner seen acc es =
        (seen ++ (dedupFirstWins seen es).map (fun e => normalizeEntry e.value),
         acc ++ dedupFirstWins seen es) := by
  intro es
  induction es with
  | nil =>
    intro seen acc
    simp [enabledEntriesInner, dedupFirstWins]
  | cons e rest ih =>
    intro seen acc
    by_cases hk : normalizeEntry e.value ∈ seen
    · simp only [enabledEntriesInner, dedupFirstWins, hk, if_true]
      exact ih seen acc
    · simp only [enabledEntriesInner, dedupFirstWins, hk, if_false, List.map_cons]
      rw [ih (seen ++ [normalizeEntry e.value]) (acc ++ [e])]
      simp [List.append_assoc]

theorem enabledEntriesLoop_eq :
    ∀ (shunts : List Shunt) (seen : List GoStr) (acc : List Entry),
      enabledEntriesLoop seen acc shunts =
        acc ++ dedupFirstWins seen (enabledConcat shunts) := by
  intro shunts
  induction shunts with
  | nil =>
    intro seen acc
    simp [enabledEntriesLoop, enabledConcat, dedupFirstWins]
  | cons sh rest ih =>
    intro seen acc
    by_cases hen : sh.enabled
    · simp only [enabledEntriesLoop, enabledConcat, hen, if_true]
      rw [enabledEntriesInner_eq sh.entries seen acc]
      dsimp only
      rw [ih, dedupFirstWins_append]
      simp [List.append_assoc]
    · simp only [enabledEntriesLoop, enabledConcat, hen, if_false,
        Bool.false_eq_true]
      exact ih seen acc

theorem dedupFirstWins_sublist : ∀ (l : List Entry) (seen : List GoStr),
    List.Sublist (dedupFirstWins seen l) l := by
  intro l
  induction l with
  | nil =>
    intro seen
    simp [dedupFirstWins]
  | cons e rest ih =>
    intro seen
    by_cases hk : normalizeEntry e.value ∈ seen
    · simp only [dedupFirstWins, hk, if_true]
      exact List.Sublist.cons e (ih seen)
    · simp only [dedupFirstWins, hk, if_false]
      exact List.Sublist.cons₂ e (ih (seen ++ [normalizeEntry e.value]))

theorem dedupFirstWins_keys : ∀ (l : List Entry) (seen : List GoStr),
    ((dedupFirstWins seen l).map (fun e => normalizeEntry e.value)).Nodup ∧
    ∀ k ∈ (dedupFirstWins seen l).map (fun e => normalizeEntry e.value), k ∉ seen := by
  intro l
  induction l with
  | nil =>
    intro seen
    simp [dedupFirstWins]
  | cons e rest ih =>
    intro seen
    by_cases hk : normalizeEntry e.value ∈ seen
    · simp only [dedupFirstWins, hk, if_true]
      exact ih seen
    · simp only [dedupFirstWins, hk, if_false, List.map_cons, List.nodup_cons]
      have ih' := ih (seen ++ [normalizeEntry e.value])
      refine ⟨⟨?_, ih'.1⟩, ?_⟩
      · intro hc
        have := ih'.2 _ hc
        simp at this
      · intro k hkmem
        rcases List.mem_cons.mp hkmem with rfl | hm
        · exact hk
        · intro hcon
          exact (ih'.2 _ hm) (List.mem_append.mpr (Or.inl hcon))

/-- C8.  `EnabledEntries` equals the spec's first-wins deduplication of the
enabled bundles' selectors in stored order: it is a sublist of that
concatenation (so only enabled bundles contribute, in order), and its
normalised values are pairwise distinct. -/
theorem enabledEntries_dedup (shunts : List Shunt) :
    enabledEntries shunts = dedupFirstWins [] (enabledConcat shunts) ∧
    List.Sublist (enabledEntries shunts) (enabledConcat shunts) ∧
    ((enabledEntries shunts).map (fun e => normalizeEntry e.value)).Nodup := by
  have h : enabledEntries shunts = dedupFirstWins [] (enabledConcat shunts) := by
    have := enabledEntriesLoop_eq shunts [] []
    simpa [enabledEntries] using this
  refine ⟨h, ?_, ?_⟩
  · rw [h]
    exact dedupFirstWins_sublist (enabledConcat shunts) []
  · rw [h]
    exact (dedupFirstWins_keys (enabledConcat shunts) []).1

/-- C8 witness: two enabled bundles sharing a value and one disabled
bundle give the first-wins snapshot. -/
theorem enabledEntries_dedup_witness :
    enabledEntries
        [⟨str "A", true, [⟨str "a.com"⟩, ⟨str "shared.com"⟩]⟩,
         ⟨str "B", true, [⟨str "b.com"⟩, ⟨str "shared.com"⟩]⟩,
         ⟨str "C", false, [⟨str "c.com"⟩]⟩] =
      dedupFirstWins [] (enabledConcat
        [⟨str "A", true, [⟨str "a.com"⟩, ⟨str "shared.com"⟩]⟩,
         ⟨str "B", true, [⟨str "b.com"⟩, ⟨str "shared.com"⟩]⟩,
         ⟨str "C", false, [⟨str "c.com"⟩]⟩]) ∧
    enabledEntries
        [⟨str "A", true, [⟨str "a.com"⟩, ⟨str "shared.com"⟩]⟩,
         ⟨str "B", true, [⟨str "b.com"⟩, ⟨str "shared.com"⟩]⟩,
         ⟨str "C", false, [⟨str "c.com"⟩]⟩] =
      [⟨str "a.com"⟩, ⟨str "shared.com"⟩, ⟨str "b.com"⟩] :=
  ⟨(enabledEntries_dedup _).1, by decide⟩

/-- C3.  `Matcher.Match` is true iff the ruleset has an exact hit, a
suffix rule covering some dot-stripping suffix of the name, a keyword that
is a substring of the name, or a matching compiled regexp; and a suffix
rule `example.com` matches `example.com`, `a.example.com` and
`a.b.example.com` but not `notexample.com`. -/
theorem matcher_match_iff :
    (∀ (r : MatcherRules) (domain : GoStr),
      matchRules r domain = true ↔
        domain ∈ r.exactSet ∨
        (∃ s ∈ suffixIterates domain, s ∈ r.suffixes) ∨
        (∃ kw ∈ r.keywords, kw <:+: domain) ∨
        (∃ re ∈ r.regexps, re domain = true)) ∧
    (∀ compile : GoStr → Option (GoStr → Bool),
      matchRules (updateRules compile [{ value := str "example.com" }])
          (str "example.com") = true ∧
      matchRules (updateRules compile [{ value := str "example.com" }])
          (str "a.example.com") = true ∧
      matchRules (updateRules compile [{ value := str "example.com" }])
          (str "a.b.example.com") = true ∧
      matchRules (updateRules compile [{ value := str "example.com" }])
          (str "notexample.com") = false) := by
  constructor
  · intro r domain
    have hbool : matchRules r domain = true ↔
        domain ∈ r.exactSet ∨ suffixWalk r.suffixes domain = true ∨
        r.keywords.any (fun kw => containsSub domain kw) = true ∨
        r.regexps.any (fun re => re domain) = true := by
      unfold matchRules
      by_cases h1 : domain ∈ r.exactSet <;>
        by_cases h2 : suffixWalk r.suffixes domain <;>
        by_cases h3 : r.keywords.any (fun kw => containsSub domain kw) <;>
          simp [h1, h2, h3]
    have hkw : (r.keywords.any fun kw => containsSub domain kw) = true ↔
        ∃ kw ∈ r.keywords, kw <:+: domain := by
      rw [List.any_eq_true]
      constructor
      · rintro ⟨kw, hmem, hc⟩
        exact ⟨kw, hmem, (containsSub_iff_isInfix domain kw).mp hc⟩
      · rintro ⟨kw, hmem, hc⟩
        exact ⟨kw, hmem, (containsSub_iff_isInfix domain kw).mpr hc⟩
    rw [hbool, suffixWalk_iff, hkw, List.any_eq_true]
  · intro compile
    exact ⟨rfl, rfl, rfl, rfl⟩

/-- C3 witness: the general characterisation applied to the singleton
suffix ruleset and a left-extension of the rule. -/
theorem matcher_match_iff_witness :
    matchRules
        { suffixes := [str "example.com"], exactSet := [], keywords := [],
          regexps := [] } (str "a.example.com") = true ↔
      str "a.example.com" ∈ ([] : List GoStr) ∨
      (∃ s ∈ suffixIterates (str "a.example.com"), s ∈ [str "example.com"]) ∨
      (∃ kw ∈ ([] : List GoStr), kw <:+: str "a.example.com") ∨
      (∃ re ∈ ([] : List (GoStr → Bool)), re (str "a.example.com") = true) :=
  matcher_match_iff.1
    { suffixes := [str "example.com"], exactSet := [], keywords := [], regexps := [] }
    (str "a.example.com")

/-- C4 counterexample.  The claim says `Track` of an IPv6 address with a
nil v6 driver is dropped silently, leaving the maps unchanged and issuing
no driver call.  On the code, the edge is inserted into both maps and an
`Add` is issued — routed to the v4 driver by `ipsetFor`'s nil fallback. -/
theorem track_v6_nil_driver_counterexample :
    isIPv6 (str "2001:db8::1") = true ∧
    (track false emptyTracker (str "example.com") (str "2001:db8::1")).1 ≠ emptyTracker ∧
    (track false emptyTracker (str "example.com") (str "2001:db8::1")).1.forward =
      [(str "example.com", [str "2001:db8::1"])] ∧
    (track false emptyTracker (str "example.com") (str "2001:db8::1")).1.reverse =
      [(str "2001:db8::1", [str "example.com"])] ∧
    (track false emptyTracker (str "example.com") (str "2001:db8::1")).2 =
      [.add SetFam.v4 (str "2001:db8::1")] := by
  refine ⟨?_, ?_, ?_, ?_, ?_⟩ <;> decide

/-- C4 amended.  For a tracker without a v6 driver, `Track(d, a)` of an
IPv6 address is not dropped: the address is recorded in the forward map
under `d`, and the `Add` call is issued on the v4 driver (where the ipset
utility will reject the family). -/
theorem track_v6_nil_driver_amended (t : TrackerState) (d a : GoStr)
    (h6 : isIPv6 a = true) :
    a ∈ lookupD (track false t d a).1.forward d ∧
    (track false t d a).2 = [.add SetFam.v4 a] := by
  constructor
  · rw [track_fst]
    by_cases hmem : a ∈ lookupD t.forward d
    · simp [hmem]
    · simp [hmem, lookupD_updateA_self]
  · rw [track_snd]
    have : ipsetFor false a = SetFam.v4 := by
      unfold ipsetFor
      simp
    rw [this]

/-- C4 amended witness: tracking `2001:db8::1` on a fresh tracker without
a v6 driver. -/
theorem track_v6_nil_driver_amended_witness :
    isIPv6 (str "2001:db8::1") = true ∧
    (str "2001:db8::1" ∈
      lookupD (track false emptyTracker (str "example.com") (str "2001:db8::1")).1.forward
        (str "example.com") ∧
    (track false emptyTracker (str "example.com") (str "2001:db8::1")).2 =
      [.add SetFam.v4 (str "2001:db8::1")]) :=
  ⟨by decide,
    track_v6_nil_driver_amended emptyTracker (str "example.com") (str "2001:db8::1")
      (by decide)⟩

theorem lookupA_ne_none_of_lookupD {m : StrMap} {k : GoStr}
    (h : lookupD m k ≠ []) : lookupA m k ≠ none := by
  intro hcon
  apply h
  simp [lookupD, hcon]

/-- C2.  After every finite sequence of Track, RemoveDomain and Flush
operations on a freshly constructed tracker, the two maps agree
(`a ∈ forward[d]` iff `d ∈ reverse[a]`) and every list present in either
map is non-empty: emptied entries are deleted, never stored. -/
theorem tracker_state_invariants (hasV6 : Bool) (ops : List TrackerOp) :
    (∀ d a, a ∈ lookupD (applyOps hasV6 ops).forward d ↔
      d ∈ lookupD (applyOps hasV6 ops).reverse a) ∧
    (∀ p ∈ (applyOps hasV6 ops).forward, p.2 ≠ []) ∧
    (∀ p ∈ (applyOps hasV6 ops).reverse, p.2 ≠ []) := by
  have h := inv_applyOps hasV6 ops
  exact ⟨h.edge_iff, fun p hp => (h.fvals p hp).1, fun p hp => (h.rvals p hp).1⟩

/-- C2 witness: a concrete instance of the correspondence after a shared
address loses one of its two domains. -/
theorem tracker_state_invariants_witness :
    (str "1.2.3.4" ∈
        lookupD (applyOps false [.track (str "a.com") (str "1.2.3.4"),
          .track (str "b.com") (str "1.2.3.4"),
          .removeDomain (str "a.com")]).forward (str "b.com") ↔
      str "b.com" ∈
        lookupD (applyOps false [.track (str "a.com") (str "1.2.3.4"),
          .track (str "b.com") (str "1.2.3.4"),
          .removeDomain (str "a.com")]).reverse (str "1.2.3.4")) :=
  (tracker_state_invariants false [.track (str "a.com") (str "1.2.3.4"),
    .track (str "b.com") (str "1.2.3.4"),
    .removeDomain (str "a.com")]).1 (str "b.com") (str "1.2.3.4")

/-- C1.  On an internally consistent tracker state, `RemoveDomain(d)`
deletes `forward[d]` and nothing else; removes `d` from `reverse[a]` for
every `a` in `forward[d]`, deleting reverse entries that become empty and
leaving other addresses' entries alone; issues `Del` exactly for the
addresses whose reverse list became empty; neither removes from the
reverse map nor `Del`s an address still referenced by another domain; and
for any sequence of Track events from a fresh tracker, `Del(a)` is issued
by `RemoveDomain(d)` iff `d` references `a` and no other tracked domain
still references `a`. -/
theorem tracker_removeDomain_correct (hasV6 : Bool) (t : TrackerState) (d : GoStr)
    (hinv : TrackerInv t) :
    lookupA (removeDomain hasV6 t d).1.forward d = none ∧
    (∀ d', d' ≠ d → lookupA (removeDomain hasV6 t d).1.forward d' = lookupA t.forward d') ∧
    (∀ a, a ∈ lookupD t.forward d →
      lookupD (removeDomain hasV6 t d).1.reverse a =
        (lookupD t.reverse a).filter (fun x => x ≠ d)) ∧
    (∀ a, a ∉ lookupD t.forward d →
      lookupA (removeDomain hasV6 t d).1.reverse a = lookupA t.reverse a) ∧
    (removeDomain hasV6 t d).2 =
      ((lookupD t.forward d).filter
        (fun a => (lookupD t.reverse a).filter (fun x => x ≠ d) = [])).map
        (fun a => IPSetEff.del (ipsetFor hasV6 a) a) ∧
    (∀ a d', d' ≠ d → d' ∈ lookupD t.reverse a →
      lookupA (removeDomain hasV6 t d).1.reverse a ≠ none ∧
        IPSetEff.del (ipsetFor hasV6 a) a ∉ (removeDomain hasV6 t d).2) ∧
    (∀ (evs : List (GoStr × GoStr)) (a : GoStr),
      IPSetEff.del (ipsetFor hasV6 a) a ∈
          (removeDomain hasV6 (applyTracks hasV6 evs) d).2 ↔
        (a ∈ lookupD (applyTracks hasV6 evs).forward d ∧
          ∀ d', d' ≠ d → a ∉ lookupD (applyTracks hasV6 evs).forward d')) := by
  have hips : (lookupD t.forward d).Nodup :=
    lookupD_nodup (fun p hp => (hinv.fvals p hp).2) d
  have hfwd : (removeDomain hasV6 t d).1.forward = eraseA t.forward d := rfl
  have hrev : (removeDomain hasV6 t d).1.reverse =
      (removeLoop d (lookupD t.forward d) t.reverse).1 := rfl
  have hsnd : (removeDomain hasV6 t d).2 =
      (removeLoop d (lookupD t.forward d) t.reverse).2.map
        (fun ip => IPSetEff.del (ipsetFor hasV6 ip) ip) := rfl
  refine ⟨?_, ?_, ?_, ?_, ?_, ?_, ?_⟩
  · rw [hfwd]
    exact lookupA_eraseA_self _ _
  · intro d' hd
    rw [hfwd]
    exact lookupA_eraseA_ne _ hd
  · intro a hmem
    rw [hrev, removeLoop_fst_lookupD d _ _ hips a, if_pos hmem]
  · intro a hmem
    rw [hrev, removeLoop_fst_lookupA d _ _ hips a, if_neg hmem]
  · rw [hsnd, removeLoop_snd d _ _ hips]
  · intro a d' hd' hdmem
    have hne : (lookupD t.reverse a).filter (fun x => x ≠ d) ≠ [] := by
      intro hcon
      have hmf : d' ∈ (lookupD t.reverse a).filter (fun x => x ≠ d) :=
        List.mem_filter.mpr ⟨hdmem, by simpa using hd'⟩
      rw [hcon] at hmf
      exact List.not_mem_nil d' hmf
    constructor
    · rw [hrev, removeLoop_fst_lookupA d _ _ hips a]
      by_cases hmem : a ∈ lookupD t.forward d
      · rw [if_pos hmem, if_neg hne]
        simp
      · rw [if_neg hmem]
        exact lookupA_ne_none_of_lookupD (List.ne_nil_of_mem hdmem)
    · rw [hsnd, removeLoop_snd d _ _ hips]
      intro hcon
      rcases List.mem_map.mp hcon with ⟨b, hb, heq⟩
      simp only [IPSetEff.del.injEq] at heq
      obtain ⟨-, rfl⟩ := heq
      have hfb := (List.mem_filter.mp hb).2
      exact hne (by simpa using hfb)
  · intro evs a
    have hinv' : TrackerInv (applyTracks hasV6 evs) := by
      unfold applyTracks
      exact inv_applyOps hasV6 _
    have hips' : (lookupD (applyTracks hasV6 evs).forward d).Nodup :=
      lookupD_nodup (fun p hp => (hinv'.fvals p hp).2) d
    have hsnd' : (removeDomain hasV6 (applyTracks hasV6 evs) d).2 =
        (removeLoop d (lookupD (applyTracks hasV6 evs).forward d)
          (applyTracks hasV6 evs).reverse).2.map
          (fun ip => IPSetEff.del (ipsetFor hasV6 ip) ip) := rfl
    rw [hsnd', removeLoop_snd d _ _ hips']
    constructor
    · intro hmem
      rcases List.mem_map.mp hmem with ⟨b, hb, heq⟩
      simp only [IPSetEff.del.injEq] at heq
      rw [heq.2] at hb
      have hf := List.mem_filter.mp hb
      refine ⟨hf.1, ?_⟩
      intro d' hd' hcon
      have hd'rev : d' ∈ lookupD (applyTracks hasV6 evs).reverse a :=
        (hinv'.edge_iff d' a).mp hcon
      have hfe : (lookupD (applyTracks hasV6 evs).reverse a).filter
          (fun x => x ≠ d) = [] := by simpa using hf.2
      have : d' ∈ (lookupD (applyTracks hasV6 evs).reverse a).filter
          (fun x => x ≠ d) :=
        List.mem_filter.mpr ⟨hd'rev, by simpa using hd'⟩
      rw [hfe] at this
      exact List.not_mem_nil d' this
    · intro ⟨hmem, hnone⟩
      apply List.mem_map.mpr
      refine ⟨a, ?_, rfl⟩
      apply List.mem_filter.mpr
      refine ⟨hmem, ?_⟩
      have hfe : (lookupD (applyTracks hasV6 evs).reverse a).filter
          (fun x => x ≠ d) = [] := by
        rw [List.filter_eq_nil_iff]
        intro d' hd'
        by_cases hdd : d' = d
        · simp [hdd]
        · exact absurd ((hinv'.edge_iff d' a).mpr hd') (hnone d' hdd)
      simpa using hfe

/-- C1 witness: after `Track(a.com, 1.1.1.1)`, `Track(b.com, 1.1.1.1)`,
`Track(a.com, 2.2.2.2)`, removing `a.com` issues `Del` only for
`2.2.2.2`. -/
theorem tracker_removeDomain_correct_witness :
    TrackerInv (applyTracks false
      [(str "a.com", str "1.1.1.1"), (str "b.com", str "1.1.1.1"),
        (str "a.com", str "2.2.2.2")]) ∧
    (removeDomain false (applyTracks false
      [(str "a.com", str "1.1.1.1"), (str "b.com", str "1.1.1.1"),
        (str "a.com", str "2.2.2.2")]) (str "a.com")).2 =
      [IPSetEff.del SetFam.v4 (str "2.2.2.2")] := by
  have hinv : TrackerInv (applyTracks false
      [(str "a.com", str "1.1.1.1"), (str "b.com", str "1.1.1.1"),
        (str "a.com", str "2.2.2.2")]) :=
    inv_applyOps false _
  refine ⟨hinv, ?_⟩
  have h := (tracker_removeDomain_correct false _ (str "a.com") hinv).2.2.2.2.1
  rw [h]
  decide

end Netshunt
